import Mathlib

/-!
Shallow embedding of `lib/versionn.js` (the `versionn` utility).

File contents are modelled as `List Char`.  The JavaScript regular expression
`/(\bVERSION\b.*?)(\d+\.\d+\.\d+(?:-[a-zA-Z0-9]+)?)/` and the semantics of
`String.prototype.replace` (including `$`-substitution templates) are embedded
as executable functions with exact JS semantics: `.` does not match line
terminators, `\b` is the usual word-boundary test, `*?` is non-greedy, and the
overall match is the leftmost one.

The external `semver` and `asyncc` npm packages are not part of the
repository; they are modelled from the specification (see the doc comments
starting with `Modelled from the spec:`).
-/

set_option linter.unusedVariables false

namespace Versionn

/-- Character class `[a-zA-Z0-9]` of the JS pattern. -/
def isAlnum (c : Char) : Bool := c.isAlpha || c.isDigit

/-- JS word character `\w` = `[a-zA-Z0-9_]`, used by the `\b` assertion. -/
def isWordChar (c : Char) : Bool := isAlnum c || c = '_'

/-- JS line terminators, which `.` (without the `s` flag) does not match. -/
def isLineTerm (c : Char) : Bool := c = '\n' || c = '\r' || c = '\u2028' || c = '\u2029'

/-- Whitespace removed by JS `String.prototype.trim` (common characters). -/
def isJsSpace (c : Char) : Bool :=
  c = ' ' || c = '\t' || c = '\n' || c = '\r' || c = '\x0b' || c = '\x0c'

/-- Split a list at the longest prefix satisfying `p` (like `span`). -/
def takeWhileC (p : Char → Bool) : List Char → List Char × List Char
  | [] => ([], [])
  | c :: cs =>
    if p c then
      let r := takeWhileC p cs
      (c :: r.1, r.2)
    else ([], c :: cs)

/-- JS `String.prototype.trim` on character lists. -/
def trimC (s : List Char) : List Char :=
  ((s.dropWhile isJsSpace).reverse.dropWhile isJsSpace).reverse

/-- Node `path.basename` (posix): the part of the path after the last `/`. -/
def basename (f : List Char) : List Char :=
  (f.reverse.takeWhile (fun c => c != '/')).reverse

/-- Node `path.extname` (posix): from the last `.` of the basename, empty when
the only dot is the leading character or there is no dot. -/
def extname (f : List Char) : List Char :=
  let b := basename f
  let r := b.reverse.takeWhile (fun c => c != '.')
  if r.length + 1 ≤ b.length then
    if r.length + 1 = b.length then [] else '.' :: r.reverse
  else []

/-- Whether `readFile` would JSON-parse this path (`path.extname === '.json'`). -/
def isJsonFile (f : List Char) : Bool := extname f = ".json".data

/-! ### The `VERSION` pattern

`const VERSION = /(\bVERSION\b.*?)(\d+\.\d+\.\d+(?:-[a-zA-Z0-9]+)?)/`
(line 16 of the source). -/

/-- Require a nonempty run of digits (`\d+`): returns the run and the rest. -/
def reqDigits (s : List Char) : Option (List Char × List Char) :=
  match takeWhileC Char.isDigit s with
  | ([], _) => none
  | (d, r) => some (d, r)

/-- Require a literal character at the head. -/
def reqChar (c : Char) : List Char → Option (List Char)
  | x :: r => if x = c then some r else none
  | [] => none

/-- Greedy optional group `(?:-[a-zA-Z0-9]+)?`: the consumed characters and
the rest.  Matches empty when no `-` followed by at least one alphanumeric
character is present. -/
def optPre (s : List Char) : List Char × List Char :=
  match s with
  | '-' :: r =>
    (match takeWhileC isAlnum r with
     | ([], _) => ([], s)
     | (p, r2) => ('-' :: p, r2))
  | _ => ([], s)

/-- Match the token `\d+\.\d+\.\d+(?:-[a-zA-Z0-9]+)?` at the head of `s`
(group 2 of the pattern): returns the matched token and the rest.  Greedy
matching of `\d+` and of the optional suffix is exact here because a digit run
can only end at a non-digit and nothing follows the group in the pattern. -/
def matchToken (s : List Char) : Option (List Char × List Char) :=
  match reqDigits s with
  | none => none
  | some (d1, r1) =>
    match reqChar '.' r1 with
    | none => none
    | some r2 =>
      match reqDigits r2 with
      | none => none
      | some (d2, r3) =>
        match reqChar '.' r3 with
        | none => none
        | some r4 =>
          match reqDigits r4 with
          | none => none
          | some (d3, r5) =>
            match optPre r5 with
            | (pre, r6) => some (d1 ++ '.' :: d2 ++ '.' :: d3 ++ pre, r6)

/-- The non-greedy `.*?` followed by group 2: starting after the literal
`VERSION`, consume as few non-line-terminator characters as possible until the
token matches.  Returns (consumed middle, token, rest). -/
def findToken : List Char → Option (List Char × List Char × List Char)
  | [] => none
  | c :: cs =>
    match matchToken (c :: cs) with
    | some (t, r) => some ([], t, r)
    | none =>
      if isLineTerm c then none
      else
        match findToken cs with
        | some (m, t, r) => some (c :: m, t, r)
        | none => none

/-- The literal `VERSION`. -/
def verChars : List Char := ['V', 'E', 'R', 'S', 'I', 'O', 'N']

/-- Strip the literal `VERSION` from the head of the list. -/
def stripVERSION : List Char → Option (List Char)
  | 'V' :: 'E' :: 'R' :: 'S' :: 'I' :: 'O' :: 'N' :: r => some r
  | _ => none

/-- Try the whole pattern at the current position.  `prevWord` says whether
the character immediately before this position is a word character (for the
first `\b`); the second `\b` holds iff the character after `VERSION` is not a
word character (the token starts with a digit, so a match never starts
directly after `VERSION`).  Returns (group 1, group 2, rest). -/
def tryAt (prevWord : Bool) (s : List Char) : Option (List Char × List Char × List Char) :=
  if prevWord then none
  else
    match stripVERSION s with
    | none => none
    | some r =>
      match r with
      | [] => none
      | c :: _ =>
        if isWordChar c then none
        else
          match findToken r with
          | some (m, t, rest) => some (verChars ++ m, t, rest)
          | none => none

/-- Leftmost-match scan of the pattern, as `RegExp.prototype.exec` performs:
try each start position from the left.  Returns
(text before the match, group 1, group 2, text after the match). -/
def scanVersion : Bool → List Char → Option (List Char × List Char × List Char × List Char)
  | _, [] => none
  | prevWord, c :: cs =>
    match tryAt prevWord (c :: cs) with
    | some (g1, g2, r) => some ([], g1, g2, r)
    | none =>
      match scanVersion (isWordChar c) cs with
      | some (b, g1, g2, r) => some (c :: b, g1, g2, r)
      | none => none

/-- `VERSION.exec(data)` with its two capture groups. -/
def versionExec (s : List Char) : Option (List Char × List Char × List Char × List Char) :=
  scanVersion false s

/-! ### The claim's reading of the pattern (for comparison only)

The claim states that the intervening characters between the `VERSION` marker
and the version token may "include line breaks".  The following three
definitions follow the claim's words (dot-matches-all); they differ from the
source-faithful `findToken`/`tryAt`/`scanVersion` only in dropping the
line-terminator restriction. -/

/-- Claim-side variant of `findToken` whose `.*?` also crosses line breaks. -/
def claimFindToken (s : List Char) : Option (List Char × List Char × List Char) :=
  match matchToken s with
  | some (t, r) => some ([], t, r)
  | none =>
    match s with
    | [] => none
    | c :: cs =>
      match claimFindToken cs with
      | some (m, t, r) => some (c :: m, t, r)
      | none => none

/-- Claim-side variant of `tryAt`. -/
def claimTryAt (prevWord : Bool) (s : List Char) :
    Option (List Char × List Char × List Char) :=
  if prevWord then none
  else
    match stripVERSION s with
    | none => none
    | some r =>
      match r with
      | [] => none
      | c :: _ =>
        if isWordChar c then none
        else
          match claimFindToken r with
          | some (m, t, rest) => some (verChars ++ m, t, rest)
          | none => none

/-- Claim-side variant of `scanVersion`/`versionExec`. -/
def claimScan (prevWord : Bool) (s : List Char) :
    Option (List Char × List Char × List Char × List Char) :=
  match claimTryAt prevWord s with
  | some (g1, g2, r) => some ([], g1, g2, r)
  | none =>
    match s with
    | [] => none
    | c :: cs =>
      match claimScan (isWordChar c) cs with
      | some (b, g1, g2, r) => some (c :: b, g1, g2, r)
      | none => none

/-! ### Semantic versions

Modelled from the spec: the external `semver` npm package is not part of the
repository.  Glossary: "a version string of the form `major.minor.patch` with
an optional `-prerelease` suffix"; data-model invariant: "a prerelease
identifier of alphanumerics"; §4.1: standard increment rules for
`premajor, preminor, prepatch, prerelease, major, minor, patch, pre`,
where bumping major resets minor/patch and clears the prerelease, and the
"pre" variants set or increment a prerelease identifier (first prerelease
is `0`). -/

/-- One dot-separated prerelease identifier: numeric identifiers are held as
numbers (as the semver parser does), others as their characters. -/
inductive PreId where
  | num (n : Nat)
  | str (s : List Char)
deriving DecidableEq

/-- Parsed semantic version. -/
structure SemVer where
  major : Nat
  minor : Nat
  patch : Nat
  prerelease : List PreId
deriving DecidableEq

/-- Decimal digits of `n`, most significant first (fuel-based auxiliary; the
fuel bounds the number of digits). -/
def natToCharsAux : Nat → Nat → List Char → List Char
  | 0, _, acc => acc
  | _ + 1, 0, acc => acc
  | fuel + 1, n, acc => natToCharsAux fuel (n / 10) (Nat.digitChar (n % 10) :: acc)

/-- Decimal rendering of a natural number. -/
def natToChars (n : Nat) : List Char :=
  if n = 0 then ['0'] else natToCharsAux (n + 1) n []

/-- Numeric value of a digit string. -/
def charsToNat (l : List Char) : Nat :=
  l.foldl (fun a c => a * 10 + (c.toNat - 48)) 0

/-- Split a character list on `.` (like JS `split('.')`); never empty. -/
def splitOnDot : List Char → List (List Char)
  | [] => [[]]
  | c :: cs =>
    match splitOnDot cs with
    | [] => [[c]]
    | h :: t => if c = '.' then [] :: h :: t else (c :: h) :: t

/-- Join identifier chunks with `.`. -/
def joinDot : List (List Char) → List Char
  | [] => []
  | [x] => x
  | x :: xs => x ++ '.' :: joinDot xs

/-- Classify one prerelease identifier (numeric identifiers become numbers). -/
def classifyId (s : List Char) : PreId :=
  if s.all Char.isDigit then .num (charsToNat s) else .str s

/-- Parse the prerelease part (after the `-`): dot-separated nonempty
alphanumeric identifiers. -/
def parsePre (s : List Char) : Option (List PreId) :=
  if (splitOnDot s).all (fun p => !p.isEmpty && p.all isAlnum) then
    some ((splitOnDot s).map classifyId)
  else none

/-- Modelled from the spec: `semver.parse` — `major.minor.patch` with an
optional `-prerelease` suffix of alphanumeric identifiers. -/
def parseSemVer (s : List Char) : Option SemVer :=
  match reqDigits s with
  | none => none
  | some (d1, r1) =>
    match reqChar '.' r1 with
    | none => none
    | some r2 =>
      match reqDigits r2 with
      | none => none
      | some (d2, r3) =>
        match reqChar '.' r3 with
        | none => none
        | some r4 =>
          match reqDigits r4 with
          | none => none
          | some (d3, r5) =>
            match r5 with
            | [] => some ⟨charsToNat d1, charsToNat d2, charsToNat d3, []⟩
            | '-' :: r6 =>
              (parsePre r6).map fun l => ⟨charsToNat d1, charsToNat d2, charsToNat d3, l⟩
            | _ => none

/-- Modelled from the spec: truthiness of `semver.valid`. -/
def semverValid (s : List Char) : Bool := (parseSemVer s).isSome

/-- `semver.valid` applied to a possibly-absent value (absent is invalid). -/
def semverValidO : Option (List Char) → Bool
  | some s => semverValid s
  | none => false

/-- Characters of one prerelease identifier. -/
def preIdChars : PreId → List Char
  | .num n => natToChars n
  | .str s => s

/-- `SemVer.toString`. -/
def svToChars (sv : SemVer) : List Char :=
  natToChars sv.major ++ '.' :: natToChars sv.minor ++ '.' :: natToChars sv.patch ++
    (if sv.prerelease.isEmpty then [] else '-' :: joinDot (sv.prerelease.map preIdChars))

/-- Increment the rightmost numeric prerelease identifier, if any. -/
def bumpList : List PreId → Option (List PreId)
  | [] => none
  | PreId.num n :: xs =>
    match bumpList xs with
    | some xs2 => some (.num n :: xs2)
    | none => some (.num (n + 1) :: xs)
  | PreId.str s :: xs =>
    match bumpList xs with
    | some xs2 => some (.str s :: xs2)
    | none => none

/-- Modelled from the spec: the semver `pre` step — bump the rightmost numeric
prerelease identifier, else append `0` (on an empty prerelease: `[0]`). -/
def bumpPre (l : List PreId) : List PreId :=
  match bumpList l with
  | some l2 => l2
  | none => l ++ [.num 0]

/-- Modelled from the spec: `semver`'s increment algorithm (`SemVer.inc`).
Unrecognized release types make the library throw, modelled as `none`. -/
def svInc (sv : SemVer) (c : String) : Option SemVer :=
  if c = "premajor" then some ⟨sv.major + 1, 0, 0, [.num 0]⟩
  else if c = "preminor" then some ⟨sv.major, sv.minor + 1, 0, [.num 0]⟩
  else if c = "prepatch" then some ⟨sv.major, sv.minor, sv.patch + 1, [.num 0]⟩
  else if c = "prerelease" then
    some (if sv.prerelease.isEmpty then ⟨sv.major, sv.minor, sv.patch + 1, [.num 0]⟩
          else ⟨sv.major, sv.minor, sv.patch, bumpPre sv.prerelease⟩)
  else if c = "pre" then some ⟨sv.major, sv.minor, sv.patch, bumpPre sv.prerelease⟩
  else if c = "major" then
    some ⟨if sv.minor = 0 && sv.patch = 0 && !sv.prerelease.isEmpty then sv.major
          else sv.major + 1, 0, 0, []⟩
  else if c = "minor" then
    some ⟨sv.major, if sv.patch = 0 && !sv.prerelease.isEmpty then sv.minor
          else sv.minor + 1, 0, []⟩
  else if c = "patch" then
    some ⟨sv.major, sv.minor, if !sv.prerelease.isEmpty then sv.patch
          else sv.patch + 1, []⟩
  else none

/-! ### The `Version` object -/

/-- `CMDS` (line 18 of the source): the recognized increment commands. -/
def CMDS : List String :=
  ["premajor", "preminor", "prepatch", "prerelease", "major", "minor", "patch", "pre",
   "same", "set"]

/-- The mutable fields of a `Version` instance relevant to its behaviour:
`file`, `cmd`, `options.type === 'VERSION'`, and `version`. -/
structure VState where
  file : List Char
  cmd : String
  typeVERSION : Bool
  version : Option (List Char)
deriving DecidableEq

/-- The `Version` constructor: stores `options.version` as-is (no validation),
defaults `cmd` to `'same'` (`options.cmd || 'same'`), and sets
`options.type = 'VERSION'` when `path.basename(file) === 'VERSION'`. -/
def mkVersion (file : List Char) (optVersion : Option (List Char)) (optCmd : Option String) :
    VState :=
  { file := file
    cmd := match optCmd with | some c => if c = "" then "same" else c | none => "same"
    typeVERSION := decide (basename file = "VERSION".data)
    version := optVersion }

/-- File content as seen after `readFile`: a parsed JSON object (only its
`version` field is relevant to the program) or plain text. -/
inductive FileData where
  | obj (version : Option (List Char))
  | text (s : List Char)
deriving DecidableEq

/-- `Version.prototype.setVersion`: store the version when `semver.valid`
accepts it, otherwise clear the stored version and return an error. -/
def setVersion (st : VState) (v : Option (List Char)) : VState × Option String :=
  if semverValidO v then ({ st with version := v }, none)
  else ({ st with version := none }, some "Bad semver version")

/-- `Version.prototype._extract`: pick the candidate version from the data
(object: its `version` field; `VERSION` type: trimmed content; otherwise
group 2 of the first pattern match) and pass it through `setVersion`. -/
def _extract (st : VState) (d : FileData) : VState × Option String :=
  let ver : Option (List Char) :=
    match d with
    | .obj v => v
    | .text s =>
      if st.typeVERSION then some (trimC s)
      else
        match versionExec s with
        | some (b, g1, g2, r) => some g2
        | none => none
  setVersion st ver

/-- `Version.prototype.extract`, given the outcome of `readFile`: on a read
error the version is left as it was; otherwise `_extract` runs.  Returns the
new state, the error, and the version handed to the callback. -/
def extract (st : VState) (rd : Except String FileData) :
    VState × Option String × Option (List Char) :=
  match rd with
  | .error e => (st, some e, st.version)
  | .ok d =>
    let r := _extract st d
    (r.1, r.2, r.1.version)

/-- The effective command of `inc`: `cmd = cmd || this.cmd` (an absent or
empty argument falls back to the instance command). -/
def effCmd (st : VState) : Option String → String
  | some s => if s = "" then st.cmd else s
  | none => st.cmd

/-- `Version.prototype.inc`: `semver.parse` the stored version; when it parses
and the (defaulted) command is truthy and in `CMDS`, re-serialize (`same`) or
apply the semver increment (which throws on `set`, modelled as `.error`);
otherwise return `undefined` (modelled as `none`) and change nothing. -/
def inc (st : VState) (cmd0 : Option String) : Except String (VState × Option (List Char)) :=
  match (match st.version with | some v => parseSemVer v | none => none) with
  | none => .ok (st, none)
  | some sv =>
    if effCmd st cmd0 ≠ "" ∧ effCmd st cmd0 ∈ CMDS then
      if effCmd st cmd0 = "same" then
        .ok ({ st with version := some (svToChars sv) }, some (svToChars sv))
      else
        match svInc sv (effCmd st cmd0) with
        | some sv2 => .ok ({ st with version := some (svToChars sv2) }, some (svToChars sv2))
        | none => .error "invalid increment argument"
    else .ok (st, none)

/-! ### `replace` and `_change` -/

/-- Numeric value of a digit character. -/
def digitVal (c : Char) : Nat := c.toNat - 48

/-- Capture group by index (the pattern has exactly two groups). -/
def capGroup (g1 g2 : List Char) : Nat → List Char
  | 1 => g1
  | 2 => g2
  | _ => []

/-- JS `GetSubstitution` for a replacement template with two capture groups:
`$$`, `$&`, the before/after-match escapes, and `$n`/`$nn` group references
(`$n` with `n` above the group count is literal). -/
def expandTemplate (bm g1 g2 whole am : List Char) : List Char → List Char
  | [] => []
  | c :: rest =>
    if c = '$' then
      match rest with
      | [] => ['$']
      | c2 :: r2 =>
        if c2 = '$' then '$' :: expandTemplate bm g1 g2 whole am r2
        else if c2 = '&' then whole ++ expandTemplate bm g1 g2 whole am r2
        else if c2 = Char.ofNat 96 then bm ++ expandTemplate bm g1 g2 whole am r2
        else if c2 = Char.ofNat 39 then am ++ expandTemplate bm g1 g2 whole am r2
        else if c2.isDigit then
          match r2 with
          | c3 :: r3 =>
            if c3.isDigit && decide (1 ≤ 10 * digitVal c2 + digitVal c3)
                && decide (10 * digitVal c2 + digitVal c3 ≤ 2) then
              capGroup g1 g2 (10 * digitVal c2 + digitVal c3) ++
                expandTemplate bm g1 g2 whole am r3
            else if decide (1 ≤ digitVal c2) && decide (digitVal c2 ≤ 2) then
              capGroup g1 g2 (digitVal c2) ++ expandTemplate bm g1 g2 whole am (c3 :: r3)
            else '$' :: c2 :: expandTemplate bm g1 g2 whole am (c3 :: r3)
          | [] =>
            if decide (1 ≤ digitVal c2) && decide (digitVal c2 ≤ 2) then
              capGroup g1 g2 (digitVal c2)
            else ['$', c2]
        else '$' :: c2 :: expandTemplate bm g1 g2 whole am r2
    else c :: expandTemplate bm g1 g2 whole am rest

/-- `data.replace(VERSION, '$1' + newSub)`: replace the first (leftmost) match
of the pattern by the expansion of the template, or return the data unchanged
when there is no match. -/
def jsReplace (s newSub : List Char) : List Char :=
  match versionExec s with
  | none => s
  | some (bm, g1, g2, am) =>
    bm ++ expandTemplate bm g1 g2 (g1 ++ g2) am ('$' :: '1' :: newSub) ++ am

/-- The characters of the JS string `"undefined"` (what `'$1' + undefined`
appends when the stored version is absent). -/
def undefinedChars : List Char := ['u', 'n', 'd', 'e', 'f', 'i', 'n', 'e', 'd']

/-- `Version.prototype._change`: objects have a truthy `version` field
overwritten; `VERSION`-type files become exactly the version (JS `undefined`
when none is stored, modelled as `none`); anything else goes through
`replace`. -/
def _change (st : VState) (d : FileData) : Option FileData :=
  match d with
  | .obj v =>
    some (.obj (match v with
      | some (c :: cs) => st.version
      | other => other))
  | .text s =>
    if st.typeVERSION then st.version.map .text
    else some (.text (jsReplace s (match st.version with
      | some v => v
      | none => undefinedChars)))

/-- `Version.prototype.change`, given the outcome of `readFile`: a read error
is passed through; otherwise the rewritten data is written back (the write
itself is file-system I/O and only fails outside the model, except for the
JS `TypeError` when `_change` produced `undefined` data). -/
def changeResult (st : VState) (rd : Except String FileData) : Except String FileData :=
  match rd with
  | .error e => .error e
  | .ok d =>
    match _change st d with
    | some d2 => .ok d2
    | none => .error "TypeError: invalid data"

/-! ### The batch (`Version.changeFiles`)

Modelled from the spec: `asyncc.eachLimit(5, files, ...)` is an external
package.  §5: "BatchRunner enforces a concurrency cap of exactly 5
simultaneously in-flight per-file operations; when one finishes, the next
pending file (if any) is admitted.  No ordering guarantee exists between
files' completions."  The nondeterministic completion order is modelled by a
small-step machine; whether a given file's change operation fails is
abstracted by an oracle `fails` (it stands for the file-system outcomes). -/

/-- State of a running batch: files not yet started (in input order), files
in flight, the collected failed paths (in completion order, as
`err.push(file)` appends), and the finished files (in completion order). -/
structure BatchState where
  pending : List String
  running : List String
  errs : List String
  done : List String
deriving DecidableEq

/-- Initial batch state: nothing started. -/
def initBatch (files : List String) : BatchState :=
  ⟨files, [], [], []⟩

/-- One scheduler step: admit the next pending file while fewer than 5 are in
flight, or complete any in-flight file, recording its path when its change
operation failed.  Completion always admits no error into the control flow:
the per-file callback only pushes the path and continues. -/
inductive BatchStep (fails : String → Bool) : BatchState → BatchState → Prop
  | start (f : String) (rest running errs done : List String) :
      running.length < 5 →
      BatchStep fails ⟨f :: rest, running, errs, done⟩ ⟨rest, running ++ [f], errs, done⟩
  | finish (pending l1 l2 errs done : List String) (f : String) :
      BatchStep fails ⟨pending, l1 ++ f :: l2, errs, done⟩
        ⟨pending, l1 ++ l2, if fails f then errs ++ [f] else errs, done ++ [f]⟩

/-- Reachable batch states. -/
inductive BatchReach (fails : String → Bool) (files : List String) : BatchState → Prop
  | init : BatchReach fails files (initBatch files)
  | step {s s2} : BatchReach fails files s → BatchStep fails s s2 → BatchReach fails files s2

/-- Result of `Version.changeFiles` as seen by its callback, together with the
list of files whose change operation was ever started. -/
inductive CFResult where
  | precondErr (msg : String) (started : List String)
  | done (failed : List String) (started : List String)
deriving DecidableEq

/-- `Version.changeFiles files version cb`: an absent version calls the
callback at once with a single error (no batch machine runs, no file is
started); otherwise the batch machine runs to completion and the callback
receives the collected failed paths. -/
inductive ChangeFilesRun (fails : String → Bool) :
    List String → Option (List Char) → CFResult → Prop
  | noVersion (files : List String) :
      ChangeFilesRun fails files none (.precondErr "version is undefined" [])
  | run (files : List String) (v : List Char) (s : BatchState) :
      BatchReach fails files s → s.pending = [] → s.running = [] →
      ChangeFilesRun fails files (some v) (.done s.errs s.done)

/-! ### Lemmas about the pattern matcher -/

/-- Head of the list, if any, fails `p` (used to state maximality splits). -/
def headNotP (p : Char → Bool) : List Char → Prop
  | [] => True
  | c :: _ => p c = false

theorem takeWhileC_decomp (p : Char → Bool) :
    ∀ l : List Char, (takeWhileC p l).1 ++ (takeWhileC p l).2 = l
  | [] => rfl
  | c :: cs => by
    by_cases h : p c <;> simp [takeWhileC, h, takeWhileC_decomp p cs]

theorem takeWhileC_fst_all (p : Char → Bool) :
    ∀ l : List Char, ∀ c ∈ (takeWhileC p l).1, p c = true
  | [] => by simp [takeWhileC]
  | c :: cs => by
    by_cases h : p c
    · simp only [takeWhileC, h, if_true]
      intro a ha
      rcases List.mem_cons.mp ha with rfl | ha2
      · exact h
      · exact takeWhileC_fst_all p cs a ha2
    · simp [takeWhileC, h]

theorem takeWhileC_append (p : Char → Bool) :
    ∀ xs ys : List Char, (∀ c ∈ xs, p c = true) → headNotP p ys →
      takeWhileC p (xs ++ ys) = (xs, ys)
  | [], ys, _, hy => by
    cases ys with
    | nil => rfl
    | cons c cs =>
      have hc : p c = false := hy
      simp [takeWhileC, hc]
  | x :: xs, ys, hx, hy => by
    have hpx : p x = true := hx x (by simp)
    simp [takeWhileC, hpx, takeWhileC_append p xs ys (fun c hc => hx c (by simp [hc])) hy]

theorem reqDigits_eq_some {s d r : List Char} (h : reqDigits s = some (d, r)) :
    d ≠ [] ∧ (∀ c ∈ d, c.isDigit = true) ∧ d ++ r = s := by
  unfold reqDigits at h
  split at h
  · exact absurd h (by simp)
  · next d' r' hne heq =>
    injection h with h2
    injection h2 with hd hr
    subst hd
    subst hr
    refine ⟨hne, ?_, ?_⟩
    · intro c hc
      have := takeWhileC_fst_all Char.isDigit s
      rw [heq] at this
      exact this c hc
    · have := takeWhileC_decomp Char.isDigit s
      rw [heq] at this
      exact this

theorem reqDigits_append {d r : List Char} (hne : d ≠ [])
    (hd : ∀ c ∈ d, c.isDigit = true) (hr : headNotP Char.isDigit r) :
    reqDigits (d ++ r) = some (d, r) := by
  unfold reqDigits
  rw [takeWhileC_append Char.isDigit d r hd hr]
  cases d with
  | nil => exact absurd rfl hne
  | cons c cs => rfl

theorem reqChar_cons (c : Char) (r : List Char) : reqChar c (c :: r) = some r := by
  simp [reqChar]

theorem optPre_decomp (s : List Char) : (optPre s).1 ++ (optPre s).2 = s := by
  unfold optPre
  split
  · next r =>
    split
    · simp
    · next p r2 hne heq =>
      have h1 := takeWhileC_decomp isAlnum r
      rw [heq] at h1
      simpa using h1
  · simp

theorem optPre_shape (s : List Char) :
    (optPre s).1 = [] ∨
      ∃ p, (optPre s).1 = '-' :: p ∧ p ≠ [] ∧ ∀ c ∈ p, isAlnum c = true := by
  unfold optPre
  split
  · next r =>
    split
    · exact Or.inl rfl
    · next p r2 hne heq =>
      refine Or.inr ⟨p, rfl, hne, ?_⟩
      intro c hc
      have := takeWhileC_fst_all isAlnum r
      rw [heq] at this
      exact this c hc
  · exact Or.inl rfl

theorem optPre_nil : optPre [] = ([], []) := rfl

theorem optPre_dash (p : List Char) (hne : p ≠ []) (hp : ∀ c ∈ p, isAlnum c = true) :
    optPre ('-' :: p) = ('-' :: p, []) := by
  have htw : takeWhileC isAlnum p = (p, []) := by
    simpa using takeWhileC_append isAlnum p [] hp trivial
  cases p with
  | nil => exact absurd rfl hne
  | cons c cs => simp [optPre, htw]

theorem reqChar_eq_some {c : Char} {l r : List Char} (h : reqChar c l = some r) :
    l = c :: r := by
  cases l with
  | nil => exact absurd h (by simp [reqChar])
  | cons x xs =>
    simp only [reqChar] at h
    split at h
    · next hx =>
      injection h with h2
      subst h2
      rw [hx]
    · exact absurd h (by simp)

theorem matchToken_inv {s t r : List Char} (h : matchToken s = some (t, r)) :
    ∃ d1 d2 d3 pre,
      t = d1 ++ '.' :: d2 ++ '.' :: d3 ++ pre ∧
      d1 ≠ [] ∧ (∀ c ∈ d1, c.isDigit = true) ∧
      d2 ≠ [] ∧ (∀ c ∈ d2, c.isDigit = true) ∧
      d3 ≠ [] ∧ (∀ c ∈ d3, c.isDigit = true) ∧
      (pre = [] ∨ ∃ p, pre = '-' :: p ∧ p ≠ [] ∧ (∀ c ∈ p, isAlnum c = true)) ∧
      t ++ r = s := by
  unfold matchToken at h
  split at h
  · exact absurd h (by simp)
  · next d1 r1 heq1 =>
    split at h
    · exact absurd h (by simp)
    · next r2 heq2 =>
      split at h
      · exact absurd h (by simp)
      · next d2 r3 heq3 =>
        split at h
        · exact absurd h (by simp)
        · next r4 heq4 =>
          split at h
          · exact absurd h (by simp)
          · next d3 r5 heq5 =>
            split at h
            next pre r6 heq6 =>
            injection h with h2
            injection h2 with ht hr
            subst ht
            subst hr
            obtain ⟨hne1, hdig1, hs1⟩ := reqDigits_eq_some heq1
            obtain ⟨hne2, hdig2, hs2⟩ := reqDigits_eq_some heq3
            obtain ⟨hne3, hdig3, hs3⟩ := reqDigits_eq_some heq5
            have hr1 := reqChar_eq_some heq2
            have hr3 := reqChar_eq_some heq4
            have hdec := optPre_decomp r5
            rw [heq6] at hdec
            have hshape := optPre_shape r5
            rw [heq6] at hshape
            refine ⟨d1, d2, d3, pre, rfl, hne1, hdig1, hne2, hdig2, hne3, hdig3, hshape, ?_⟩
            rw [← hs1, hr1, ← hs2, hr3, ← hs3, ← hdec]
            simp

theorem matchToken_decomp {s t r : List Char} (h : matchToken s = some (t, r)) :
    t ++ r = s := by
  obtain ⟨_, _, _, _, _, _, _, _, _, _, _, _, hs⟩ := matchToken_inv h
  exact hs

theorem headNotP_cons (p : Char → Bool) (c : Char) (l : List Char) :
    headNotP p (c :: l) ↔ p c = false := Iff.rfl

theorem headNotP_nil (p : Char → Bool) : headNotP p [] := trivial

/-- A token shape (`\d+\.\d+\.\d+` with optional `-[a-zA-Z0-9]+`) matches the
token pattern entirely, with nothing left over. -/
theorem matchToken_of_shape {d1 d2 d3 pre : List Char}
    (hne1 : d1 ≠ []) (hdig1 : ∀ c ∈ d1, c.isDigit = true)
    (hne2 : d2 ≠ []) (hdig2 : ∀ c ∈ d2, c.isDigit = true)
    (hne3 : d3 ≠ []) (hdig3 : ∀ c ∈ d3, c.isDigit = true)
    (hpre : pre = [] ∨ ∃ p, pre = '-' :: p ∧ p ≠ [] ∧ (∀ c ∈ p, isAlnum c = true)) :
    matchToken (d1 ++ '.' :: d2 ++ '.' :: d3 ++ pre) =
      some (d1 ++ '.' :: d2 ++ '.' :: d3 ++ pre, []) := by
  have hnotdig : headNotP Char.isDigit pre := by
    rcases hpre with rfl | ⟨p, rfl, _, _⟩
    · exact headNotP_nil _
    · exact (headNotP_cons _ _ _).mpr (by decide)
  have h1 : reqDigits (d1 ++ ('.' :: (d2 ++ '.' :: (d3 ++ pre)))) =
      some (d1, '.' :: (d2 ++ '.' :: (d3 ++ pre))) := by
    refine reqDigits_append hne1 hdig1 ?_
    exact (headNotP_cons _ _ _).mpr (by decide)
  have h3 : reqDigits (d2 ++ '.' :: (d3 ++ pre)) = some (d2, '.' :: (d3 ++ pre)) := by
    refine reqDigits_append hne2 hdig2 ?_
    exact (headNotP_cons _ _ _).mpr (by decide)
  have h5 : reqDigits (d3 ++ pre) = some (d3, pre) :=
    reqDigits_append hne3 hdig3 hnotdig
  have h6 : optPre pre = (pre, []) := by
    rcases hpre with rfl | ⟨p, rfl, hne, hal⟩
    · exact optPre_nil
    · exact optPre_dash p hne hal
  simp only [List.append_assoc, List.cons_append]
  simp only [matchToken, h1, reqChar_cons, h3, h5, h6, List.append_assoc, List.cons_append]

theorem matchToken_self {s t r : List Char} (h : matchToken s = some (t, r)) :
    matchToken t = some (t, []) := by
  obtain ⟨d1, d2, d3, pre, ht, hne1, hdig1, hne2, hdig2, hne3, hdig3, hpre, _⟩ :=
    matchToken_inv h
  subst ht
  exact matchToken_of_shape hne1 hdig1 hne2 hdig2 hne3 hdig3 hpre

theorem splitOnDot_nodot {p : List Char} (hp : ∀ c ∈ p, c ≠ '.') :
    splitOnDot p = [p] := by
  induction p with
  | nil => rfl
  | cons c cs ih =>
    have hih := ih (fun d hd => hp d (by simp [hd]))
    have hc : ¬c = '.' := hp c (by simp)
    simp [splitOnDot, hih, hc]

theorem parsePre_of_alnum {p : List Char} (hne : p ≠ []) (hp : ∀ c ∈ p, isAlnum c = true) :
    parsePre p = some [classifyId p] := by
  have hnd : ∀ c ∈ p, c ≠ '.' := by
    intro c hc he
    have := hp c hc
    rw [he] at this
    exact absurd this (by decide)
  simp [parsePre, splitOnDot_nodot hnd, List.all_eq_true]
  refine ⟨?_, fun c hc => hp c hc⟩
  simpa using hne

/-- A matched token is a valid semantic version for the modelled `semver`
validity check. -/
theorem matchToken_valid {s t r : List Char} (h : matchToken s = some (t, r)) :
    (parseSemVer t).isSome = true := by
  obtain ⟨d1, d2, d3, pre, ht, hne1, hdig1, hne2, hdig2, hne3, hdig3, hpre, _⟩ :=
    matchToken_inv h
  subst ht
  rcases hpre with rfl | ⟨p, rfl, hne, hal⟩
  · have h1 : reqDigits (d1 ++ ('.' :: (d2 ++ '.' :: d3))) =
        some (d1, '.' :: (d2 ++ '.' :: d3)) := by
      refine reqDigits_append hne1 hdig1 ?_
      exact (headNotP_cons _ _ _).mpr (by decide)
    have h3 : reqDigits (d2 ++ '.' :: d3) = some (d2, '.' :: d3) := by
      refine reqDigits_append hne2 hdig2 ?_
      exact (headNotP_cons _ _ _).mpr (by decide)
    have h5 : reqDigits d3 = some (d3, []) := by
      simpa using reqDigits_append hne3 hdig3 (headNotP_nil Char.isDigit)
    simp only [List.append_assoc, List.cons_append, List.append_nil]
    simp only [parseSemVer, h1, reqChar_cons, h3, h5, Option.isSome_some]
  · have h1 : reqDigits (d1 ++ ('.' :: (d2 ++ '.' :: (d3 ++ '-' :: p)))) =
        some (d1, '.' :: (d2 ++ '.' :: (d3 ++ '-' :: p))) := by
      refine reqDigits_append hne1 hdig1 ?_
      exact (headNotP_cons _ _ _).mpr (by decide)
    have h3 : reqDigits (d2 ++ '.' :: (d3 ++ '-' :: p)) =
        some (d2, '.' :: (d3 ++ '-' :: p)) := by
      refine reqDigits_append hne2 hdig2 ?_
      exact (headNotP_cons _ _ _).mpr (by decide)
    have h5 : reqDigits (d3 ++ '-' :: p) = some (d3, '-' :: p) := by
      refine reqDigits_append hne3 hdig3 ?_
      exact (headNotP_cons _ _ _).mpr (by decide)
    simp only [List.append_assoc, List.cons_append]
    simp only [parseSemVer, h1, reqChar_cons, h3, h5]
    simp [parsePre_of_alnum hne hal]

theorem findToken_inv {s : List Char} :
    ∀ {m t r : List Char}, findToken s = some (m, t, r) →
      m ++ (t ++ r) = s ∧ (∀ c ∈ m, isLineTerm c = false) ∧
        matchToken (t ++ r) = some (t, r) := by
  induction s with
  | nil =>
    intro m t r h
    rw [show findToken [] = none from rfl] at h
    exact absurd h (by simp)
  | cons c cs ih =>
    intro m t r h
    unfold findToken at h
    split at h
    · next t' r' heq =>
      injection h with h2
      injection h2 with hm h3
      injection h3 with ht hr
      subst hm
      subst ht
      subst hr
      have hd := matchToken_decomp heq
      exact ⟨by simpa using hd, by simp, by rw [hd]; exact heq⟩
    · split at h
      · exact absurd h (by simp)
      · next hlt =>
        split at h
        · next m' t' r' heq2 =>
          injection h with h2
          injection h2 with hm h3
          injection h3 with ht hr
          subst ht
          subst hr
          subst hm
          obtain ⟨ih1, ih2, ih3⟩ := ih heq2
          refine ⟨by simp [ih1], ?_, ih3⟩
          intro a ha
          rcases List.mem_cons.mp ha with rfl | ha2
          · simpa using hlt
          · exact ih2 a ha2
        · exact absurd h (by simp)

theorem stripVERSION_eq_some {s r : List Char} (h : stripVERSION s = some r) :
    s = verChars ++ r := by
  unfold stripVERSION at h
  split at h
  · next r' =>
    injection h with h2
    subst h2
    rfl
  · exact absurd h (by simp)

theorem tryAt_inv {w : Bool} {s g1 g2 r : List Char} (h : tryAt w s = some (g1, g2, r)) :
    w = false ∧ g1 ++ (g2 ++ r) = s ∧
      (∃ m, g1 = verChars ++ m ∧ (∀ c ∈ m, isLineTerm c = false)) ∧
      matchToken (g2 ++ r) = some (g2, r) := by
  unfold tryAt at h
  split at h
  · exact absurd h (by simp)
  · next hw =>
    split at h
    · exact absurd h (by simp)
    · next r0 heq0 =>
      split at h
      · exact absurd h (by simp)
      · next c cs =>
        split at h
        · exact absurd h (by simp)
        · next hwc =>
          split at h
          · next m t rest heq1 =>
            injection h with h2
            injection h2 with hg1 h3
            injection h3 with hg2 hr
            subst hg1
            subst hg2
            subst hr
            obtain ⟨f1, f2, f3⟩ := findToken_inv heq1
            have hs := stripVERSION_eq_some heq0
            refine ⟨by simpa using hw, ?_, ⟨m, rfl, f2⟩, f3⟩
            rw [hs, ← f1]
            simp
          · exact absurd h (by simp)

/-- Word-character status of the character preceding a position: the word
status of the last character of the prefix, falling back to the context flag
`w` when the prefix is empty. -/
def lastWord : List Char → Bool → Bool
  | [], w => w
  | c :: p, _ => lastWord p (isWordChar c)

theorem lastWord_cons (c : Char) (p : List Char) (w : Bool) :
    lastWord (c :: p) w = lastWord p (isWordChar c) := rfl

theorem scanVersion_inv {s : List Char} :
    ∀ {w : Bool} {b g1 g2 r : List Char}, scanVersion w s = some (b, g1, g2, r) →
      b ++ (g1 ++ (g2 ++ r)) = s ∧
        tryAt (lastWord b w) (g1 ++ (g2 ++ r)) = some (g1, g2, r) := by
  induction s with
  | nil =>
    intro w b g1 g2 r h
    exact absurd h (by rw [show scanVersion w [] = none from rfl]; simp)
  | cons c cs ih =>
    intro w b g1 g2 r h
    unfold scanVersion at h
    split at h
    · next g1' g2' r' heq =>
      injection h with h2
      injection h2 with hb h3
      injection h3 with hg1 h4
      injection h4 with hg2 hr
      subst hb
      subst hg1
      subst hg2
      subst hr
      have := (tryAt_inv heq).2.1
      exact ⟨this, by rwa [show lastWord [] w = w from rfl, this]⟩
    · split at h
      · next b' g1' g2' r' heq2 =>
        injection h with h2
        injection h2 with hb h3
        injection h3 with hg1 h4
        injection h4 with hg2 hr
        subst hb
        subst hg1
        subst hg2
        subst hr
        obtain ⟨ih1, ih2⟩ := ih heq2
        exact ⟨by simp [ih1], by rwa [lastWord_cons]⟩
      · exact absurd h (by simp)

theorem scanVersion_leftmost {s : List Char} :
    ∀ {w : Bool} {b g1 g2 r : List Char}, scanVersion w s = some (b, g1, g2, r) →
      ∀ p q : List Char, p ++ q = s → p.length < b.length →
        tryAt (lastWord p w) q = none := by
  induction s with
  | nil =>
    intro w b g1 g2 r h p q hpq hlen
    have hp : p = [] := by
      cases p with
      | nil => rfl
      | cons c0 p2 => simp at hpq
    subst hp
    have hq : q = [] := by simpa using hpq
    subst hq
    cases w <;> rfl
  | cons c cs ih =>
    intro w b g1 g2 r h p q hpq hlen
    unfold scanVersion at h
    split at h
    · next heq =>
      injection h with h2
      injection h2 with hb h3
      subst hb
      exact absurd hlen (by simp)
    · next htry =>
      split at h
      · next b' g1' g2' r' heq2 =>
        injection h with h2
        injection h2 with hb h3
        injection h3 with hg1 h4
        injection h4 with hg2 hr
        subst hb
        subst hg1
        subst hg2
        subst hr
        cases p with
        | nil =>
          have hq : q = c :: cs := by simpa using hpq
          subst hq
          exact htry
        | cons c0 p' =>
          have hc0 : c0 = c := by
            have := congrArg (fun l => l.headD ' ') hpq
            simpa using this
          subst hc0
          have hcs : p' ++ q = cs := by
            have := congrArg List.tail hpq
            simpa using this
          have hlen' : p'.length < b'.length := by simpa using hlen
          rw [lastWord_cons]
          exact ih heq2 p' q hcs hlen'
      · exact absurd h (by simp)

/-! ### Well-formedness of semantic versions and their rendering -/

/-- A prerelease identifier renders to a nonempty alphanumeric chunk. -/
def wfId (id : PreId) : Prop :=
  preIdChars id ≠ [] ∧ ∀ c ∈ preIdChars id, isAlnum c = true

/-- All prerelease identifiers are well formed. -/
def wfPre (l : List PreId) : Prop := ∀ id ∈ l, wfId id

theorem isAlnum_of_isDigit {c : Char} (h : c.isDigit = true) : isAlnum c = true := by
  simp [isAlnum, h]

theorem digitChar_isDigit {m : Nat} (h : m < 10) : (Nat.digitChar m).isDigit = true := by
  interval_cases m <;> decide

theorem natToCharsAux_digits : ∀ (fuel n : Nat) (acc : List Char),
    (∀ c ∈ acc, c.isDigit = true) → ∀ c ∈ natToCharsAux fuel n acc, c.isDigit = true := by
  intro fuel
  induction fuel with
  | zero =>
    intro n acc hacc c hc
    rw [natToCharsAux] at hc
    exact hacc c hc
  | succ k ih =>
    intro n acc hacc c hc
    match n with
    | 0 =>
      rw [natToCharsAux] at hc
      exact hacc c hc
    | m + 1 =>
      rw [show natToCharsAux (k + 1) (m + 1) acc =
          natToCharsAux k ((m + 1) / 10) (Nat.digitChar ((m + 1) % 10) :: acc) from rfl] at hc
      refine ih ((m + 1) / 10) _ ?_ c hc
      intro d hd
      rcases List.mem_cons.mp hd with rfl | hd2
      · exact digitChar_isDigit (Nat.mod_lt _ (by decide))
      · exact hacc d hd2

theorem natToCharsAux_ne_nil : ∀ (fuel n : Nat) (acc : List Char), acc ≠ [] →
    natToCharsAux fuel n acc ≠ [] := by
  intro fuel
  induction fuel with
  | zero =>
    intro n acc hacc
    rw [natToCharsAux]
    exact hacc
  | succ k ih =>
    intro n acc hacc
    match n with
    | 0 =>
      rw [natToCharsAux]
      exact hacc
    | m + 1 =>
      rw [show natToCharsAux (k + 1) (m + 1) acc =
          natToCharsAux k ((m + 1) / 10) (Nat.digitChar ((m + 1) % 10) :: acc) from rfl]
      exact ih ((m + 1) / 10) _ (by simp)

theorem natToChars_digits (n : Nat) : ∀ c ∈ natToChars n, c.isDigit = true := by
  unfold natToChars
  split
  · intro c hc
    have : c = '0' := by simpa using hc
    subst this
    decide
  · exact natToCharsAux_digits (n + 1) n [] (by simp)

theorem natToChars_ne_nil (n : Nat) : natToChars n ≠ [] := by
  unfold natToChars
  split
  · simp
  · match n with
    | m + 1 =>
      rw [show natToCharsAux (m + 1 + 1) (m + 1) [] =
          natToCharsAux (m + 1) ((m + 1) / 10) [Nat.digitChar ((m + 1) % 10)] from rfl]
      exact natToCharsAux_ne_nil _ _ _ (by simp)

theorem wfId_num (k : Nat) : wfId (.num k) :=
  ⟨natToChars_ne_nil k, fun c hc => isAlnum_of_isDigit (natToChars_digits k c hc)⟩

theorem splitOnDot_ne_nil : ∀ l : List Char, splitOnDot l ≠ [] := by
  intro l
  cases l with
  | nil => simp [splitOnDot]
  | cons c cs =>
    unfold splitOnDot
    split
    · simp
    · split <;> simp

theorem splitOnDot_append {x : List Char} (r : List Char) (hx : ∀ c ∈ x, c ≠ '.') :
    splitOnDot (x ++ '.' :: r) = x :: splitOnDot r := by
  induction x with
  | nil =>
    obtain ⟨h, t, heq⟩ : ∃ h t, splitOnDot r = h :: t := by
      cases hsd : splitOnDot r with
      | nil => exact absurd hsd (splitOnDot_ne_nil r)
      | cons h t => exact ⟨h, t, rfl⟩
    simp [splitOnDot, heq]
  | cons c x2 ih =>
    have hih := ih (fun d hd => hx d (by simp [hd]))
    have hc : ¬c = '.' := hx c (by simp)
    have hstep : splitOnDot (c :: (x2 ++ '.' :: r)) =
        match splitOnDot (x2 ++ '.' :: r) with
        | [] => [[c]]
        | h :: t => if c = '.' then [] :: h :: t else (c :: h) :: t := rfl
    rw [List.cons_append, hstep, hih]
    simp [hc]

theorem parsePre_isSome_iff {s : List Char} :
    (parsePre s).isSome = true ↔
      (splitOnDot s).all (fun p => !p.isEmpty && p.all isAlnum) = true := by
  unfold parsePre
  split
  · next hall => simp [hall]
  · next hall => simp [hall]

theorem parsePre_wf {s : List Char} {l : List PreId} (h : parsePre s = some l) : wfPre l := by
  unfold parsePre at h
  split at h
  · next hall =>
    injection h with h2
    subst h2
    intro id hid
    rw [List.mem_map] at hid
    obtain ⟨p, hp, rfl⟩ := hid
    have hcheck := List.all_eq_true.mp hall p hp
    rw [Bool.and_eq_true] at hcheck
    obtain ⟨h1, h2⟩ := hcheck
    have hne : p ≠ [] := by
      intro hp0
      subst hp0
      simp at h1
    have hal : ∀ c ∈ p, isAlnum c = true := List.all_eq_true.mp h2
    unfold classifyId
    split
    · exact wfId_num _
    · exact ⟨by simpa [preIdChars] using hne, by simpa [preIdChars] using hal⟩
  · exact absurd h (by simp)

theorem parseSemVer_wf {s : List Char} {sv : SemVer} (h : parseSemVer s = some sv) :
    wfPre sv.prerelease := by
  unfold parseSemVer at h
  split at h
  · exact absurd h (by simp)
  · split at h
    · exact absurd h (by simp)
    · split at h
      · exact absurd h (by simp)
      · split at h
        · exact absurd h (by simp)
        · split at h
          · exact absurd h (by simp)
          · split at h
            · injection h with h2
              subst h2
              intro id hid
              simp at hid
            · next r6 =>
              rw [Option.map_eq_some'] at h
              obtain ⟨l, hl, h2⟩ := h
              subst h2
              exact parsePre_wf hl
            · exact absurd h (by simp)

theorem bumpList_wf : ∀ {l l2 : List PreId}, bumpList l = some l2 → wfPre l → wfPre l2 := by
  intro l
  induction l with
  | nil => intro l2 h _; exact absurd h (by simp [bumpList])
  | cons x xs ih =>
    intro l2 h hw
    cases x with
    | num n =>
      unfold bumpList at h
      split at h
      · next xs2 heq =>
        injection h with h2
        subst h2
        intro id hid
        rcases List.mem_cons.mp hid with rfl | hid2
        · exact wfId_num _
        · exact ih heq (fun j hj => hw j (by simp [hj])) id hid2
      · injection h with h2
        subst h2
        intro id hid
        rcases List.mem_cons.mp hid with rfl | hid2
        · exact wfId_num _
        · exact hw id (by simp [hid2])
    | str s =>
      unfold bumpList at h
      split at h
      · next xs2 heq =>
        injection h with h2
        subst h2
        intro id hid
        rcases List.mem_cons.mp hid with rfl | hid2
        · exact hw (PreId.str s) (by simp)
        · exact ih heq (fun j hj => hw j (by simp [hj])) id hid2
      · exact absurd h (by simp)

theorem bumpPre_wf {l : List PreId} (hw : wfPre l) : wfPre (bumpPre l) := by
  unfold bumpPre
  split
  · next l2 heq => exact bumpList_wf heq hw
  · intro id hid
    rcases List.mem_append.mp hid with h1 | h2
    · exact hw id h1
    · have : id = PreId.num 0 := by simpa using h2
      subst this
      exact wfId_num 0

theorem svInc_wf {sv sv2 : SemVer} {c : String} (h : svInc sv c = some sv2)
    (hw : wfPre sv.prerelease) : wfPre sv2.prerelease := by
  unfold svInc at h
  split at h
  · injection h with h2
    subst h2
    intro id hid
    have : id = PreId.num 0 := by simpa using hid
    subst this
    exact wfId_num 0
  · split at h
    · injection h with h2
      subst h2
      intro id hid
      have : id = PreId.num 0 := by simpa using hid
      subst this
      exact wfId_num 0
    · split at h
      · injection h with h2
        subst h2
        intro id hid
        have : id = PreId.num 0 := by simpa using hid
        subst this
        exact wfId_num 0
      · split at h
        · injection h with h2
          subst h2
          split
          · intro id hid
            have : id = PreId.num 0 := by simpa using hid
            subst this
            exact wfId_num 0
          · exact bumpPre_wf hw
        · split at h
          · injection h with h2
            subst h2
            exact bumpPre_wf hw
          · split at h
            · injection h with h2
              subst h2
              intro id hid
              simp at hid
            · split at h
              · injection h with h2
                subst h2
                intro id hid
                simp at hid
              · split at h
                · injection h with h2
                  subst h2
                  intro id hid
                  simp at hid
                · exact absurd h (by simp)

theorem joinDot_parsePre : ∀ {l : List PreId}, l ≠ [] → wfPre l →
    (parsePre (joinDot (l.map preIdChars))).isSome = true := by
  intro l
  induction l with
  | nil => intro h _; exact absurd rfl h
  | cons x xs ih =>
    intro _ hw
    have hwx := hw x (by simp)
    cases xs with
    | nil =>
      simp only [List.map, joinDot]
      rw [parsePre_of_alnum hwx.1 hwx.2]
      rfl
    | cons y ys =>
      have hih := ih (by simp) (fun j hj => hw j (by simp [hj]))
      simp only [List.map, joinDot]
      rw [parsePre_isSome_iff]
      have hnd : ∀ c ∈ preIdChars x, c ≠ '.' := by
        intro c hc he
        have := hwx.2 c hc
        rw [he] at this
        exact absurd this (by decide)
      rw [splitOnDot_append _ hnd]
      rw [List.all_cons, Bool.and_eq_true]
      constructor
      · rw [Bool.and_eq_true]
        refine ⟨?_, List.all_eq_true.mpr hwx.2⟩
        cases hx : preIdChars x with
        | nil => exact absurd hx hwx.1
        | cons c cs => simp
      · rw [← parsePre_isSome_iff]
        simpa [List.map, joinDot] using hih

theorem svToChars_valid {sv : SemVer} (hw : wfPre sv.prerelease) :
    semverValid (svToChars sv) = true := by
  unfold semverValid
  have h1 : ∀ rest : List Char, headNotP Char.isDigit rest →
      reqDigits (natToChars sv.major ++ rest) = some (natToChars sv.major, rest) :=
    fun rest hr => reqDigits_append (natToChars_ne_nil _) (natToChars_digits _) hr
  cases hpre : sv.prerelease with
  | nil =>
    have hs : svToChars sv =
        natToChars sv.major ++ ('.' :: (natToChars sv.minor ++ '.' :: natToChars sv.patch)) := by
      unfold svToChars
      rw [hpre]
      simp
    rw [hs]
    have ha : reqDigits (natToChars sv.major ++
        ('.' :: (natToChars sv.minor ++ '.' :: natToChars sv.patch))) =
        some (natToChars sv.major, '.' :: (natToChars sv.minor ++ '.' :: natToChars sv.patch)) :=
      h1 _ ((headNotP_cons _ _ _).mpr (by decide))
    have hb : reqDigits (natToChars sv.minor ++ '.' :: natToChars sv.patch) =
        some (natToChars sv.minor, '.' :: natToChars sv.patch) := by
      refine reqDigits_append (natToChars_ne_nil _) (natToChars_digits _) ?_
      exact (headNotP_cons _ _ _).mpr (by decide)
    have hc : reqDigits (natToChars sv.patch) = some (natToChars sv.patch, []) := by
      simpa using reqDigits_append (natToChars_ne_nil _) (natToChars_digits _)
        (headNotP_nil Char.isDigit)
    simp only [parseSemVer, ha, hb, hc, reqChar_cons, Option.isSome_some]
  | cons i l =>
    have hs : svToChars sv =
        natToChars sv.major ++ ('.' :: (natToChars sv.minor ++ '.' ::
          (natToChars sv.patch ++ '-' :: joinDot (sv.prerelease.map preIdChars)))) := by
      unfold svToChars
      rw [hpre]
      simp [hpre]
    rw [hs]
    have ha : reqDigits (natToChars sv.major ++ ('.' :: (natToChars sv.minor ++ '.' ::
        (natToChars sv.patch ++ '-' :: joinDot (sv.prerelease.map preIdChars))))) =
        some (natToChars sv.major, '.' :: (natToChars sv.minor ++ '.' ::
          (natToChars sv.patch ++ '-' :: joinDot (sv.prerelease.map preIdChars)))) :=
      h1 _ ((headNotP_cons _ _ _).mpr (by decide))
    have hb : reqDigits (natToChars sv.minor ++ '.' ::
        (natToChars sv.patch ++ '-' :: joinDot (sv.prerelease.map preIdChars))) =
        some (natToChars sv.minor, '.' ::
          (natToChars sv.patch ++ '-' :: joinDot (sv.prerelease.map preIdChars))) := by
      refine reqDigits_append (natToChars_ne_nil _) (natToChars_digits _) ?_
      exact (headNotP_cons _ _ _).mpr (by decide)
    have hc : reqDigits
        (natToChars sv.patch ++ '-' :: joinDot (sv.prerelease.map preIdChars)) =
        some (natToChars sv.patch, '-' :: joinDot (sv.prerelease.map preIdChars)) := by
      refine reqDigits_append (natToChars_ne_nil _) (natToChars_digits _) ?_
      exact (headNotP_cons _ _ _).mpr (by decide)
    have hd : (parsePre (joinDot (sv.prerelease.map preIdChars))).isSome = true := by
      refine joinDot_parsePre ?_ hw
      rw [hpre]
      simp
    simp only [parseSemVer, ha, hb, hc, reqChar_cons]
    obtain ⟨l2, hl2⟩ := Option.isSome_iff_exists.mp hd
    simp [hl2]

/-- The data-model invariant on a `Version` state (propositional form): a
present stored version is a (modelled) valid semantic version. -/
def versionInvP (st : VState) : Prop :=
  ∀ v, st.version = some v → semverValid v = true

/-- The data-model invariant on a `Version` state, as an executable check. -/
def versionInv (st : VState) : Bool :=
  match st.version with
  | some v => semverValid v
  | none => true

theorem versionInv_iff {st : VState} : versionInv st = true ↔ versionInvP st := by
  cases h : st.version with
  | none => simp [versionInv, versionInvP, h]
  | some v => simp [versionInv, versionInvP, h]

/-! ### Helper lemmas about the `Version` operations -/

theorem setVersion_valid {st : VState} {v : List Char} (h : semverValid v = true) :
    setVersion st (some v) = ({ st with version := some v }, none) := by
  simp [setVersion, semverValidO, h]

theorem setVersion_invalid {st : VState} {v : Option (List Char)}
    (h : semverValidO v = false) :
    setVersion st v = ({ st with version := none }, some "Bad semver version") := by
  simp [setVersion, h]

theorem setVersion_invP (st : VState) (v : Option (List Char)) :
    versionInvP (setVersion st v).1 := by
  unfold setVersion
  split
  · next hval =>
    intro w hw
    cases v with
    | none => exact absurd hval (by simp [semverValidO])
    | some v0 =>
      have : w = v0 := by
        have := hw
        simp at this
        exact this.symm
      subst this
      simpa [semverValidO] using hval
  · intro w hw
    simp at hw

theorem effCmd_some {st : VState} {c : String} (h : ¬c = "") : effCmd st (some c) = c := by
  simp [effCmd, h]

theorem inc_version_none {st : VState} (cmd0 : Option String) (h : st.version = none) :
    inc st cmd0 = .ok (st, none) := by
  unfold inc
  rw [h]

theorem inc_cmd_not_mem {st : VState} {c : String} (hc : c ∉ CMDS) (hne : ¬c = "") :
    inc st (some c) = .ok (st, none) := by
  unfold inc
  split
  · rfl
  · next sv heq =>
    have hcond : ¬(effCmd st (some c) ≠ "" ∧ effCmd st (some c) ∈ CMDS) := by
      rw [effCmd_some hne]
      exact fun hh => hc hh.2
    simp only [hcond, if_false]

theorem inc_preserves_inv {st : VState} {cmd0 : Option String} {st2 : VState}
    {r : Option (List Char)} (h : inc st cmd0 = .ok (st2, r)) : versionInvP st2 ∨ st2 = st := by
  unfold inc at h
  split at h
  · right
    injection h with h2
    injection h2 with h3 h4
    exact h3.symm
  · next sv heq =>
    split at h
    · split at h
      · left
        injection h with h2
        injection h2 with h3 h4
        subst h3
        intro w hw
        have : w = svToChars sv := by simpa using hw.symm
        subst this
        have hx : ∃ v0, st.version = some v0 ∧ parseSemVer v0 = some sv := by
          cases hv : st.version with
          | none => rw [hv] at heq; simp at heq
          | some v0 => rw [hv] at heq; exact ⟨v0, rfl, heq⟩
        obtain ⟨v0, _, hp⟩ := hx
        exact svToChars_valid (parseSemVer_wf hp)
      · split at h
        · next sv2 hinc =>
          left
          injection h with h2
          injection h2 with h3 h4
          subst h3
          intro w hw
          have : w = svToChars sv2 := by simpa using hw.symm
          subst this
          have hx : ∃ v0, st.version = some v0 ∧ parseSemVer v0 = some sv := by
            cases hv : st.version with
            | none => rw [hv] at heq; simp at heq
            | some v0 => rw [hv] at heq; exact ⟨v0, rfl, heq⟩
          obtain ⟨v0, _, hp⟩ := hx
          exact svToChars_valid (svInc_wf hinc (parseSemVer_wf hp))
        · exact absurd h (by simp)
    · right
      injection h with h2
      injection h2 with h3 h4
      exact h3.symm

/-! ### The batch invariant -/

theorem batchReach_inv {fails : String → Bool} {files : List String} {s : BatchState}
    (h : BatchReach fails files s) :
    s.running.length ≤ 5 ∧ (s.done ++ (s.running ++ s.pending)).Perm files ∧
      s.errs = s.done.filter (fun f => fails f) := by
  induction h with
  | init => simp [initBatch]
  | step hr hs ih =>
    obtain ⟨ih1, ih2, ih3⟩ := ih
    cases hs with
    | start f rest running errs done hlt =>
      dsimp only at ih1 ih2 ih3 ⊢
      refine ⟨?_, ?_, ih3⟩
      · simp only [List.length_append, List.length_cons, List.length_nil]
        omega
      · have he : done ++ ((running ++ [f]) ++ rest) = done ++ (running ++ (f :: rest)) := by
          simp
        rw [he]
        exact ih2
    | finish pending l1 l2 errs done f =>
      dsimp only at ih1 ih2 ih3 ⊢
      refine ⟨?_, ?_, ?_⟩
      · simp only [List.length_append, List.length_cons] at ih1 ⊢
        omega
      · have he : (done ++ [f]) ++ ((l1 ++ l2) ++ pending) =
            done ++ ((f :: (l1 ++ l2)) ++ pending) := by simp
        rw [he]
        refine List.Perm.trans
          (List.Perm.append_left done (List.Perm.append_right pending ?_)) ih2
        exact List.perm_middle.symm
      · rw [List.filter_append, ih3]
        by_cases hf : fails f <;> simp [hf]

/-! ### Replacement-template lemmas -/

theorem versionExec_decomp {s b g1 g2 r : List Char}
    (h : versionExec s = some (b, g1, g2, r)) : s = b ++ (g1 ++ (g2 ++ r)) :=
  ((scanVersion_inv h).1).symm

theorem expand_no_dollar (bm g1 g2 whole am : List Char) :
    ∀ l : List Char, (∀ c ∈ l, c ≠ '$') → expandTemplate bm g1 g2 whole am l = l := by
  intro l
  induction l with
  | nil => intro _; rfl
  | cons c rest ih =>
    intro h
    have hc : ¬c = '$' := h c (by simp)
    unfold expandTemplate
    simp only [hc, if_false]
    rw [ih (fun d hd => h d (by simp [hd]))]

theorem expand_dollar_one (bm g1 g2 whole am : List Char) (ver : List Char)
    (h : ∀ c ∈ ver, c ≠ '$') :
    expandTemplate bm g1 g2 whole am ('$' :: '1' :: ver) = g1 ++ ver := by
  cases ver with
  | nil =>
    show expandTemplate bm g1 g2 whole am ['$', '1'] = g1 ++ []
    rw [List.append_nil]
    rfl
  | cons cv rv =>
    have hno := expand_no_dollar bm g1 g2 whole am (cv :: rv) h
    have h1 : digitVal '1' = 1 := rfl
    have h2 : ¬(10 + digitVal cv ≤ 2) := by omega
    unfold expandTemplate
    simp [h1, h2, hno, capGroup]

/-! ### Claim theorems -/


/-- Decidable equality for `Except`, for concrete evaluation of `inc` results. -/
instance exceptDecidableEq {e a : Type} [DecidableEq e] [DecidableEq a] :
    DecidableEq (Except e a) := fun x y =>
  match x, y with
  | .error u, .error v =>
    if h : u = v then .isTrue (by rw [h]) else .isFalse (fun hh => h (Except.error.inj hh))
  | .ok u, .ok v =>
    if h : u = v then .isTrue (by rw [h]) else .isFalse (fun hh => h (Except.ok.inj hh))
  | .error _, .ok _ => .isFalse (fun hh => Except.noConfusion hh)
  | .ok _, .error _ => .isFalse (fun hh => Except.noConfusion hh)

/-- Every pattern position strictly before the reported match start fails. -/
theorem versionExec_leftmost_all {s b g1 g2 r : List Char}
    (h : versionExec s = some (b, g1, g2, r)) :
    ((List.range b.length).all fun i =>
      (tryAt (lastWord (s.take i) false) (s.drop i)).isNone) = true := by
  rw [List.all_eq_true]
  intro i hi
  rw [List.mem_range] at hi
  have hsplit : s.take i ++ s.drop i = s := List.take_append_drop i s
  have hlen : (s.take i).length < b.length := by
    rw [List.length_take]
    have hx : min i s.length ≤ i := Nat.min_le_left _ _
    omega
  have hnone := scanVersion_leftmost h (s.take i) (s.drop i) hsplit hlen
  simp [hnone]

/-- C1: incrementing a stored version `1.2.3` with command `major` yields
`2.0.0`, with `minor` yields `1.3.0`, with `patch` yields `1.2.4`, with
`prerelease` yields `1.2.4-0` (first-prerelease rule), and with `same` yields
`1.2.3` unchanged; and `inc` is a no-op returning absent when the stored
version is missing or when the (effective) command is not in `CMDS`. -/
theorem c1_increment_commands :
    (inc (mkVersion ['p'] (some "1.2.3".data) none) (some "major") =
      .ok ({ mkVersion ['p'] (some "1.2.3".data) none with version := some "2.0.0".data },
        some "2.0.0".data)) ∧
    (inc (mkVersion ['p'] (some "1.2.3".data) none) (some "minor") =
      .ok ({ mkVersion ['p'] (some "1.2.3".data) none with version := some "1.3.0".data },
        some "1.3.0".data)) ∧
    (inc (mkVersion ['p'] (some "1.2.3".data) none) (some "patch") =
      .ok ({ mkVersion ['p'] (some "1.2.3".data) none with version := some "1.2.4".data },
        some "1.2.4".data)) ∧
    (inc (mkVersion ['p'] (some "1.2.3".data) none) (some "prerelease") =
      .ok ({ mkVersion ['p'] (some "1.2.3".data) none with version := some "1.2.4-0".data },
        some "1.2.4-0".data)) ∧
    (inc (mkVersion ['p'] (some "1.2.3".data) none) (some "same") =
      .ok ({ mkVersion ['p'] (some "1.2.3".data) none with version := some "1.2.3".data },
        some "1.2.3".data)) ∧
    (∀ (st : VState) (cmd0 : Option String), st.version = none → inc st cmd0 = .ok (st, none)) ∧
    (∀ (st : VState) (c : String), c ∉ CMDS → c ≠ "" → inc st (some c) = .ok (st, none)) := by
  refine ⟨by decide, by decide, by decide, by decide, by decide, ?_, ?_⟩
  · intro st cmd0 h
    exact inc_version_none cmd0 h
  · intro st c hc hne
    exact inc_cmd_not_mem hc hne

/-- C1 witness: the no-op parts of C1 at concrete inputs. -/
theorem c1_increment_commands_witness :
    inc (mkVersion ['q'] none none) (some "major") = .ok (mkVersion ['q'] none none, none) ∧
    inc (mkVersion ['p'] (some "1.2.3".data) none) (some "bogus") =
      .ok (mkVersion ['p'] (some "1.2.3".data) none, none) :=
  ⟨c1_increment_commands.2.2.2.2.2.1 _ _ rfl,
   c1_increment_commands.2.2.2.2.2.2 _ "bogus" (by decide) (by decide)⟩

/-- C2: for every valid semantic-version string `v`, `setVersion v` succeeds
(no error) and stores exactly `v`; for every invalid candidate (including
`1.2`, `abc`, the empty string and an absent value) it returns a validation
error and the stored version becomes absent. -/
theorem c2_setVersion_validation :
    (∀ (st : VState) (v : List Char), semverValid v = true →
      setVersion st (some v) = ({ st with version := some v }, none)) ∧
    (∀ (st : VState) (v : Option (List Char)), semverValidO v = false →
      setVersion st v = ({ st with version := none }, some "Bad semver version")) ∧
    semverValid "1.2.3".data = true ∧
    semverValidO (some "1.2".data) = false ∧
    semverValidO (some "abc".data) = false ∧
    semverValidO (some "".data) = false ∧
    semverValidO none = false := by
  refine ⟨?_, ?_, by decide, by decide, by decide, by decide, rfl⟩
  · intro st v h
    exact setVersion_valid h
  · intro st v h
    exact setVersion_invalid h

/-- C2 witness: `setVersion` at the concrete inputs `1.2.3` and `1.2`. -/
theorem c2_setVersion_validation_witness :
    setVersion (mkVersion ['p'] none none) (some "1.2.3".data) =
      ({ mkVersion ['p'] none none with version := some "1.2.3".data }, none) ∧
    setVersion (mkVersion ['p'] none none) (some "1.2".data) =
      ({ mkVersion ['p'] none none with version := none }, some "Bad semver version") :=
  ⟨c2_setVersion_validation.1 _ _ (by decide), c2_setVersion_validation.2.1 _ _ (by decide)⟩

/-- C3: a `changeFiles` batch with a present version runs every file to
completion (the completed list is a permutation of the input files), never
aborts early, and its callback receives exactly the completion-ordered list of
the paths whose change operation failed — empty on full success. -/
theorem c3_changeFiles_collects_failed_paths (fails : String → Bool) (files : List String)
    (v : List Char) (out : CFResult) (h : ChangeFilesRun fails files (some v) out) :
    ∃ doneL : List String, doneL.Perm files ∧
      out = CFResult.done (doneL.filter (fun f => fails f)) doneL ∧
      ((∀ f ∈ files, fails f = false) → doneL.filter (fun f => fails f) = []) := by
  cases h with
  | run vx s hreach hp hr =>
    obtain ⟨_, hperm, herrs⟩ := batchReach_inv hreach
    rw [hp, hr] at hperm
    simp only [List.append_nil, List.nil_append] at hperm
    refine ⟨s.done, hperm, by rw [herrs], ?_⟩
    intro hall
    rw [List.filter_eq_nil_iff]
    intro a ha
    have haf : a ∈ files := hperm.subset ha
    simp [hall a haf]

/-- C3 witness: a concrete two-file batch where only `b` fails. -/
theorem c3_changeFiles_collects_failed_paths_witness :
    ∃ doneL : List String, doneL.Perm ["a", "b"] ∧
      CFResult.done ["b"] ["a", "b"] =
        CFResult.done (doneL.filter (fun f => f == "b")) doneL ∧
      ((∀ f ∈ ["a", "b"], (f == "b") = false) → doneL.filter (fun f => f == "b") = []) := by
  have h0 : BatchReach (fun f => f == "b") ["a", "b"] (initBatch ["a", "b"]) :=
    BatchReach.init
  have h1 : BatchReach (fun f => f == "b") ["a", "b"] ⟨["b"], ["a"], [], []⟩ :=
    h0.step (BatchStep.start "a" ["b"] [] [] [] (by decide))
  have h2 : BatchReach (fun f => f == "b") ["a", "b"] ⟨["b"], [], [], ["a"]⟩ :=
    h1.step (BatchStep.finish ["b"] [] [] [] [] "a")
  have h3 : BatchReach (fun f => f == "b") ["a", "b"] ⟨[], ["b"], [], ["a"]⟩ :=
    h2.step (BatchStep.start "b" [] [] [] ["a"] (by decide))
  have h4 : BatchReach (fun f => f == "b") ["a", "b"] ⟨[], [], ["b"], ["a", "b"]⟩ :=
    h3.step (BatchStep.finish [] [] [] [] ["a"] "b")
  exact c3_changeFiles_collects_failed_paths _ _ "1.0.0".data _
    (ChangeFilesRun.run _ "1.0.0".data _ h4 rfl rfl)

/-- C4: `changeFiles` invoked with an absent version fails immediately with
the single precondition error `version is undefined`, and the list of files
whose change operation was started is empty (no file is read or modified). -/
theorem c4_changeFiles_missing_version (fails : String → Bool) (files : List String)
    (out : CFResult) (h : ChangeFilesRun fails files none out) :
    out = CFResult.precondErr "version is undefined" [] := by
  cases h
  rfl

/-- C4 witness: the precondition error at a concrete one-file batch. -/
theorem c4_changeFiles_missing_version_witness :
    CFResult.precondErr "version is undefined" [] =
      CFResult.precondErr "version is undefined" [] :=
  c4_changeFiles_missing_version (fun _ => false) ["a.json"] _
    (ChangeFilesRun.noVersion ["a.json"])

/-- C9: in every reachable batch state at most 5 per-file operations are in
flight, and whenever a slot is free and a file is pending the scheduler can
admit the next pending file (regardless of previous outcomes). -/
theorem c9_concurrency_cap (fails : String → Bool) (files : List String) (s : BatchState)
    (h : BatchReach fails files s) :
    s.running.length ≤ 5 ∧
      (s.pending ≠ [] → s.running.length < 5 →
        BatchStep fails s
          ⟨s.pending.drop 1, s.running ++ s.pending.take 1, s.errs, s.done⟩) := by
  refine ⟨(batchReach_inv h).1, ?_⟩
  intro hp hlen
  obtain ⟨p0, r0, e0, d0⟩ := s
  dsimp only at hp hlen ⊢
  cases p0 with
  | nil => exact absurd rfl hp
  | cons f rest =>
    have hstep : BatchStep fails ⟨f :: rest, r0, e0, d0⟩ ⟨rest, r0 ++ [f], e0, d0⟩ :=
      BatchStep.start f rest r0 e0 d0 (by simpa using hlen)
    simpa using hstep

/-- C9 witness: after admitting five of twelve files the cap holds with
exactly 5 in flight. -/
theorem c9_concurrency_cap_witness :
    (⟨["f6", "f7", "f8", "f9", "f10", "f11", "f12"],
      ["f1", "f2", "f3", "f4", "f5"], ([] : List String), ([] : List String)⟩ :
        BatchState).running.length ≤ 5 := by
  have h0 : BatchReach (fun _ => false)
      ["f1", "f2", "f3", "f4", "f5", "f6", "f7", "f8", "f9", "f10", "f11", "f12"]
      (initBatch
        ["f1", "f2", "f3", "f4", "f5", "f6", "f7", "f8", "f9", "f10", "f11", "f12"]) :=
    BatchReach.init
  have h1 := h0.step (BatchStep.start "f1"
    ["f2", "f3", "f4", "f5", "f6", "f7", "f8", "f9", "f10", "f11", "f12"]
    [] [] [] (by decide))
  have h2 := h1.step (BatchStep.start "f2"
    ["f3", "f4", "f5", "f6", "f7", "f8", "f9", "f10", "f11", "f12"]
    ["f1"] [] [] (by decide))
  have h3 := h2.step (BatchStep.start "f3"
    ["f4", "f5", "f6", "f7", "f8", "f9", "f10", "f11", "f12"]
    ["f1", "f2"] [] [] (by decide))
  have h4 := h3.step (BatchStep.start "f4"
    ["f5", "f6", "f7", "f8", "f9", "f10", "f11", "f12"]
    ["f1", "f2", "f3"] [] [] (by decide))
  have h5 := h4.step (BatchStep.start "f5"
    ["f6", "f7", "f8", "f9", "f10", "f11", "f12"]
    ["f1", "f2", "f3", "f4"] [] [] (by decide))
  exact (c9_concurrency_cap _ _ _ h5).1

/-- C10: for a non-JSON, non-plain-version file whose content has no match of
the `VERSION` pattern, the change operation reports success and writes the
content back unchanged — no error is raised on the change path. -/
theorem c10_change_without_match_succeeds (st : VState) (s : List Char)
    (hkind : isJsonFile st.file = false) (htype : st.typeVERSION = false)
    (hnm : versionExec s = none) :
    changeResult st (.ok (.text s)) = .ok (.text s) := by
  unfold changeResult _change
  rw [htype]
  simp [jsReplace, hnm]

/-- C10 witness: changing a `.txt` file containing `hello` succeeds and
leaves the content unchanged. -/
theorem c10_change_without_match_succeeds_witness :
    changeResult (mkVersion "a.txt".data (some "2.0.0".data) none)
      (.ok (.text "hello".data)) = .ok (.text "hello".data) :=
  c10_change_without_match_succeeds _ _ (by decide) (by decide) (by decide)

/-- C5 counterexample: with stored version `$&` (as `changeFiles` permits),
the change operation inserts the JS replacement-template expansion of `$&`
(the whole match), not the stored version: the file `a VERSION 1.2.3 b`
becomes `a VERSION VERSION 1.2.3 b` instead of `a VERSION $& b`. -/
theorem c5_counterexample_dollar_version :
    _change (mkVersion "f.txt".data (some "$&".data) none)
      (.text "a VERSION 1.2.3 b".data) =
      some (.text "a VERSION VERSION 1.2.3 b".data) ∧
    "a VERSION VERSION 1.2.3 b".data ≠ "a VERSION $& b".data := by
  refine ⟨by decide, by decide⟩

/-- C5 amended: for a pattern-embedded file whose content matches the
pattern, provided the stored version contains no `$` character, the change
operation replaces exactly the version token of the first match with the
stored version, preserving the text before the match, the `VERSION` marker
with the intervening text (group 1), and everything after the first match
byte-for-byte. -/
theorem c5_change_first_match_substitution (st : VState) (s ver b g1 g2 rest : List Char)
    (htype : st.typeVERSION = false) (hver : st.version = some ver)
    (hnd : ∀ c ∈ ver, c ≠ '$')
    (hexec : versionExec s = some (b, g1, g2, rest)) :
    _change st (.text s) = some (.text (b ++ (g1 ++ (ver ++ rest)))) ∧
    s = b ++ (g1 ++ (g2 ++ rest)) := by
  refine ⟨?_, versionExec_decomp hexec⟩
  unfold _change
  dsimp only
  simp only [htype, Bool.false_eq_true, if_false]
  rw [hver]
  dsimp only
  unfold jsReplace
  rw [hexec]
  dsimp only
  rw [expand_dollar_one b g1 g2 (g1 ++ g2) rest ver hnd]
  simp

/-- C5 witness: `const VERSION = '1.2.3';` rewritten with version `1.3.0`. -/
theorem c5_change_first_match_substitution_witness :
    _change (mkVersion "f.js".data (some "1.3.0".data) none)
      (.text "const VERSION = '1.2.3';".data) =
      some (.text "const VERSION = '1.3.0';".data) ∧
    "const VERSION = '1.2.3';".data =
      "const ".data ++ ("VERSION = '".data ++ ("1.2.3".data ++ "';".data)) := by
  have h := c5_change_first_match_substitution
    (mkVersion "f.js".data (some "1.3.0".data) none)
    "const VERSION = '1.2.3';".data "1.3.0".data
    "const ".data "VERSION = '".data "1.2.3".data "';".data
    (by decide) (by decide) (by decide) (by decide)
  exact ⟨by rw [h.1]; decide, h.2⟩

/-- C6 counterexample: the claim-side pattern (dot crossing line breaks)
matches `VERSION\n1.2.3` with token `1.2.3`, but the source pattern finds no
match there (JS `.` does not match a line terminator), so extract fails and
stores no version. -/
theorem c6_counterexample_line_break :
    claimScan false "VERSION\n1.2.3".data =
      some ([], "VERSION\n".data, "1.2.3".data, []) ∧
    versionExec "VERSION\n1.2.3".data = none ∧
    (_extract (mkVersion "f.js".data none none) (.text "VERSION\n1.2.3".data)).1.version
      = none ∧
    (_extract (mkVersion "f.js".data none none) (.text "VERSION\n1.2.3".data)).2
      = some "Bad semver version" := by
  refine ⟨by decide, by decide, by decide, by decide⟩

/-- C6 amended: for a pattern-embedded file, extract returns group 2 of the
leftmost match of the pattern: a word-boundary-delimited literal `VERSION`
followed non-greedily across intervening non-line-terminator characters by a
`\d+\.\d+\.\d+` token with optional `-alphanumeric` suffix; no earlier
position matches (only the first match is used). -/
theorem c6_extract_first_pattern_match (st : VState) (s b g1 g2 rest : List Char)
    (htype : st.typeVERSION = false)
    (hexec : versionExec s = some (b, g1, g2, rest)) :
    (_extract st (.text s)).1.version = some g2 ∧
    (_extract st (.text s)).2 = none ∧
    s = b ++ (g1 ++ (g2 ++ rest)) ∧
    (∃ m, g1 = verChars ++ m ∧ ∀ c ∈ m, isLineTerm c = false) ∧
    matchToken g2 = some (g2, []) ∧
    ((List.range b.length).all fun i =>
      (tryAt (lastWord (s.take i) false) (s.drop i)).isNone) = true := by
  obtain ⟨hdec, htry⟩ := scanVersion_inv hexec
  obtain ⟨_, _, ⟨m, hg1, hm⟩, hmt⟩ := tryAt_inv htry
  have hvalid : semverValid g2 = true := matchToken_valid hmt
  have hself : matchToken g2 = some (g2, []) := matchToken_self hmt
  have hver : _extract st (.text s) = setVersion st (some g2) := by
    unfold _extract
    dsimp only
    rw [htype, hexec]
    rfl
  refine ⟨?_, ?_, versionExec_decomp hexec, ⟨m, hg1, hm⟩, hself,
    versionExec_leftmost_all hexec⟩
  · rw [hver, setVersion_valid hvalid]
  · rw [hver, setVersion_valid hvalid]

/-- C6 witness: extract on `x VERSION = 1.2.3; y` returns `1.2.3`. -/
theorem c6_extract_first_pattern_match_witness :
    (_extract (mkVersion "f.js".data none none)
      (.text "x VERSION = 1.2.3; y".data)).1.version = some "1.2.3".data ∧
    (_extract (mkVersion "f.js".data none none)
      (.text "x VERSION = 1.2.3; y".data)).2 = none ∧
    matchToken "1.2.3".data = some ("1.2.3".data, []) := by
  have h := c6_extract_first_pattern_match (mkVersion "f.js".data none none)
    "x VERSION = 1.2.3; y".data "x ".data "VERSION = ".data "1.2.3".data "; y".data
    (by decide) (by decide)
  exact ⟨h.1, h.2.1, h.2.2.2.2.1⟩

/-- C7 counterexample: a file named `VERSION.txt` is NOT classified as
plain-version-file (`path.basename` keeps the extension), so extract on the
content `1.2.3\n` fails with an error and stores no version, although the
trimmed content is a valid version. -/
theorem c7_counterexample_extension :
    (mkVersion "VERSION.txt".data none none).typeVERSION = false ∧
    (_extract (mkVersion "VERSION.txt".data none none)
      (.text "1.2.3\n".data)).1.version = none ∧
    (_extract (mkVersion "VERSION.txt".data none none)
      (.text "1.2.3\n".data)).2 ≠ none ∧
    semverValid (trimC "1.2.3\n".data) = true := by
  refine ⟨by decide, by decide, by decide, by decide⟩

/-- C7 amended: exactly the files whose basename is the literal `VERSION`
are classified as plain-version-file; for them extract passes the trimmed
file content to `setVersion` (storing it when it is a valid semantic
version), and change makes the content exactly the stored version string. -/
theorem c7_plain_version_file (file : List Char) (ov : Option (List Char))
    (oc : Option String) (s v : List Char) (hb : basename file = "VERSION".data) :
    (mkVersion file ov oc).typeVERSION = true ∧
    _extract (mkVersion file ov oc) (.text s) =
      setVersion (mkVersion file ov oc) (some (trimC s)) ∧
    (semverValid (trimC s) = true →
      (_extract (mkVersion file ov oc) (.text s)).1.version = some (trimC s) ∧
      (_extract (mkVersion file ov oc) (.text s)).2 = none) ∧
    (ov = some v → _change (mkVersion file ov oc) (.text s) = some (.text v)) := by
  have htype : (mkVersion file ov oc).typeVERSION = true := by
    simp [mkVersion, hb]
  have hext : _extract (mkVersion file ov oc) (.text s) =
      setVersion (mkVersion file ov oc) (some (trimC s)) := by
    unfold _extract
    dsimp only
    rw [htype]
    rfl
  refine ⟨htype, hext, ?_, ?_⟩
  · intro hval
    rw [hext, setVersion_valid hval]
    exact ⟨rfl, rfl⟩
  · intro hov
    have hv : (mkVersion file ov oc).version = some v := by simp [mkVersion, hov]
    unfold _change
    dsimp only
    rw [htype, hv]
    rfl

/-- C7 witness: `sub/VERSION` with content ` 1.2.3\n` extracts `1.2.3`;
change writes exactly `2.0.0`. -/
theorem c7_plain_version_file_witness :
    (mkVersion "sub/VERSION".data (some "2.0.0".data) none).typeVERSION = true ∧
    (_extract (mkVersion "sub/VERSION".data (some "2.0.0".data) none)
      (.text " 1.2.3\n".data)).1.version = some (trimC " 1.2.3\n".data) ∧
    _change (mkVersion "sub/VERSION".data (some "2.0.0".data) none)
      (.text " 1.2.3\n".data) = some (.text "2.0.0".data) := by
  have h := c7_plain_version_file "sub/VERSION".data (some "2.0.0".data) none
    " 1.2.3\n".data "2.0.0".data (by decide)
  exact ⟨h.1, (h.2.2.1 (by decide)).1, h.2.2.2 rfl⟩

/-- C8 counterexample: the constructor stores an arbitrary explicit
`version` option unvalidated (as `changeFiles` does), so the stored version
can be present yet invalid, violating the claimed invariant. -/
theorem c8_counterexample_constructor_unvalidated :
    (mkVersion ['a'] (some "abc".data) none).version = some "abc".data ∧
    versionInv (mkVersion ['a'] (some "abc".data) none) = false := by
  refine ⟨rfl, by decide⟩

/-- C8 amended: `setVersion`, `_extract` and `inc` preserve the invariant
that a present stored version is syntactically valid, and construction
preserves it only when the explicit `version` option is itself valid or
absent. -/
theorem c8_invariant_preservation :
    (∀ (st : VState) (v : Option (List Char)), versionInv (setVersion st v).1 = true) ∧
    (∀ (st : VState) (d : FileData), versionInv (_extract st d).1 = true) ∧
    (∀ (st st2 : VState) (cmd0 : Option String) (r : Option (List Char)),
      versionInv st = true → inc st cmd0 = .ok (st2, r) → versionInv st2 = true) ∧
    (∀ (file : List Char) (ov : Option (List Char)) (oc : Option String),
      semverValidO ov = true ∨ ov = none → versionInv (mkVersion file ov oc) = true) := by
  refine ⟨?_, ?_, ?_, ?_⟩
  · intro st v
    rw [versionInv_iff]
    exact setVersion_invP st v
  · intro st d
    rw [versionInv_iff]
    unfold _extract
    apply setVersion_invP
  · intro st st2 cmd0 r hinv hok
    rw [versionInv_iff]
    rcases inc_preserves_inv hok with h | h
    · exact h
    · rw [h]
      exact versionInv_iff.mp hinv
  · intro file ov oc hov
    rw [versionInv_iff]
    intro v hv
    have hveq : ov = some v := by simpa [mkVersion] using hv
    rcases hov with hval | hnone
    · rw [hveq] at hval
      simpa [semverValidO] using hval
    · rw [hnone] at hveq
      cases hveq

/-- C8 witness: the invariant after concrete `setVersion`, construction and
`inc` calls. -/
theorem c8_invariant_preservation_witness :
    versionInv (setVersion (mkVersion ['p'] none none) (some "abc".data)).1 = true ∧
    versionInv (mkVersion ['p'] (some "1.2.3".data) none) = true ∧
    versionInv ({ mkVersion ['p'] (some "1.2.3".data) none with
      version := some "2.0.0".data }) = true :=
  ⟨c8_invariant_preservation.1 _ _,
   c8_invariant_preservation.2.2.2 ['p'] (some "1.2.3".data) none (Or.inl (by decide)),
   c8_invariant_preservation.2.2.1 _ _ (some "major") (some "2.0.0".data)
     (c8_invariant_preservation.2.2.2 ['p'] (some "1.2.3".data) none (Or.inl (by decide)))
     (by decide)⟩


end Versionn
